import Mathlib

/-!
Shallow embedding of `src/ns3_sim.cc` (the JSON-driven ns-3 simulation driver).

The orchestration logic of `main` is translated piecewise into executable Lean
definitions:

* decimal rendering of `uint32_t` values (as done by `std::ostringstream <<`),
  used for subnet base strings (line 117) and printed IPv4 addresses;
* topology loading (lines 52-73) over a model of the nlohmann JSON values,
  where a thrown (and uncaught) exception is an explicit outcome;
* the per-link address allocation loop (lines 106-124);
* flow-pair extraction and static-route installation from `routing.json`
  (lines 134-187), where undefined behaviour (out-of-bounds container access)
  is modelled as `none`;
* random flow-pair generation and flow-count reconciliation (lines 190-203),
  where `rand() % nNodes` with `nNodes = 0` (division by zero, undefined
  behaviour) is modelled as `none`;
* the traffic-session installation loop (lines 206-231);
* the metrics address-to-index lookup (lines 275-286) and the loss-percentage
  computation (lines 292-293) with C++ `uint32_t` arithmetic made explicit.
-/

namespace NS3Sim

/-! ### Decimal rendering of unsigned integers

Models `std::ostringstream << (uint32_t)n`: the shortest decimal numeral of
`n`, no sign, no leading zeros (and `"0"` for zero).  The digit extraction is
written with explicit fuel (`fuel = n` always suffices, since `n / 10 < n`
for `n ≥ 10`) so that every definition here is structurally recursive and
kernel-reducible. -/

/-- The ASCII character of a decimal digit `d < 10`. -/
def digitChar (d : Nat) : Char := Char.ofNat (48 + d)

/-- Inverse of `digitChar` on decimal digits. -/
def digitVal (ch : Char) : Nat := ch.toNat - 48

/-- Little-endian decimal digits of `n`, with explicit fuel. -/
def natDigitsGo : Nat → Nat → List Nat
  | 0, n => [n % 10]
  | fuel + 1, n => if n < 10 then [n] else n % 10 :: natDigitsGo fuel (n / 10)

/-- Little-endian decimal digits of `n`. -/
def natDigits (n : Nat) : List Nat := natDigitsGo n n

/-- The characters printed for `n` by `operator<<` (most significant first). -/
def natChars (n : Nat) : List Char := (natDigits n).reverse.map digitChar

/-- Value of a little-endian digit list. -/
def ofDigitsLE : List Nat → Nat
  | [] => 0
  | d :: ds => d + 10 * ofDigitsLE ds

theorem natDigitsGo_ofDigitsLE : ∀ fuel n, n ≤ fuel → ofDigitsLE (natDigitsGo fuel n) = n := by
  intro fuel
  induction fuel with
  | zero =>
    intro n hn
    have h0 : n = 0 := Nat.le_zero.mp hn
    subst h0
    simp [natDigitsGo, ofDigitsLE]
  | succ f ih =>
    intro n hn
    by_cases h : n < 10
    · simp [natDigitsGo, h, ofDigitsLE]
    · have h10 : 10 ≤ n := Nat.le_of_not_lt h
      have hdiv : n / 10 ≤ f := by
        have hlt : n / 10 < n := Nat.div_lt_self (by omega) (by omega)
        omega
      simp only [natDigitsGo, if_neg h, ofDigitsLE, ih (n / 10) hdiv]
      omega

theorem natDigitsGo_lt_ten : ∀ fuel n d, d ∈ natDigitsGo fuel n → d < 10 := by
  intro fuel
  induction fuel with
  | zero =>
    intro n d hd
    simp only [natDigitsGo, List.mem_singleton] at hd
    subst hd
    exact Nat.mod_lt _ (by omega)
  | succ f ih =>
    intro n d hd
    by_cases h : n < 10
    · simp only [natDigitsGo, if_pos h, List.mem_singleton] at hd
      omega
    · simp only [natDigitsGo, if_neg h, List.mem_cons] at hd
      rcases hd with hd | hd
      · subst hd
        exact Nat.mod_lt _ (by omega)
      · exact ih (n / 10) d hd

theorem natDigits_lt_ten {n d : Nat} (hd : d ∈ natDigits n) : d < 10 :=
  natDigitsGo_lt_ten n n d hd

theorem ofDigitsLE_natDigits (n : Nat) : ofDigitsLE (natDigits n) = n :=
  natDigitsGo_ofDigitsLE n n (Nat.le_refl n)

theorem digitVal_digitChar : ∀ d, d < 10 → digitVal (digitChar d) = d := by decide

theorem digitChar_ne_dot : ∀ d, d < 10 → digitChar d ≠ '.' := by decide

theorem natChars_inj {m n : Nat} (h : natChars m = natChars n) : m = n := by
  have hid : ∀ k : Nat, ((natDigits k).reverse.map digitChar).map digitVal = (natDigits k).reverse := by
    intro k
    rw [List.map_map]
    refine (List.map_congr_left ?_).trans (List.map_id _)
    intro d hd
    exact digitVal_digitChar d (natDigits_lt_ten (List.mem_reverse.mp hd))
  have h2 := congrArg (List.map digitVal) h
  unfold natChars at h2
  rw [hid m, hid n] at h2
  have h3 : natDigits m = natDigits n := List.reverse_injective h2
  calc m = ofDigitsLE (natDigits m) := (ofDigitsLE_natDigits m).symm
    _ = ofDigitsLE (natDigits n) := by rw [h3]
    _ = n := ofDigitsLE_natDigits n

theorem natChars_no_dot (n : Nat) : '.' ∉ natChars n := by
  intro hmem
  unfold natChars at hmem
  rcases List.mem_map.mp hmem with ⟨d, hd, hch⟩
  exact digitChar_ne_dot d (natDigits_lt_ten (List.mem_reverse.mp hd)) hch

/-- Splitting a character list at a distinguished first `'.'`:
if the parts before the dot are dot-free, the decomposition is unique. -/
theorem append_dot_inj :
    ∀ (xs ys : List Char), '.' ∉ xs → '.' ∉ ys →
      ∀ u v : List Char, xs ++ '.' :: u = ys ++ '.' :: v → xs = ys ∧ u = v := by
  intro xs
  induction xs with
  | nil =>
    intro ys _ hy u v h
    cases ys with
    | nil => simpa using h
    | cons b bs =>
      simp only [List.nil_append, List.cons_append, List.cons.injEq] at h
      have hb : b = '.' := h.1.symm
      subst hb
      exact (hy (List.mem_cons_self _ _)).elim
  | cons a as ih =>
    intro ys hx hy u v h
    cases ys with
    | nil =>
      simp only [List.cons_append, List.nil_append, List.cons.injEq] at h
      have ha : a = '.' := h.1
      subst ha
      exact (hx (List.mem_cons_self _ _)).elim
    | cons b bs =>
      simp only [List.cons_append, List.cons.injEq] at h
      have hx' : '.' ∉ as := fun hc => hx (List.mem_cons_of_mem a hc)
      have hy' : '.' ∉ bs := fun hc => hy (List.mem_cons_of_mem b hc)
      rcases ih bs hx' hy' u v h.2 with ⟨h1, h2⟩
      exact ⟨by rw [h.1, h1], h2⟩

/-! ### IPv4 address strings of the allocator

`main` derives the subnet base of the link handled with counter value `c` as
the string `"10." << (c / 256) << "." << (c % 256) << ".0"` (line 117) and
hands it to `Ipv4AddressHelper::SetBase` with mask `255.255.255.0`.  The
engine (`Ipv4AddressHelper::Assign`, per the collaborator contract of the
spec, §6) then gives the two endpoint devices the host addresses `.1` and
`.2` of that subnet, in install order, and `ipToStr` (lines 93-97) prints
them in dotted decimal.  `hostStr c h` is the printed form of host `h` of
the subnet with counter value `c`; the subnet base itself is host `0`. -/

/-- Characters of `"10." ++ dec (c / 256) ++ "." ++ dec (c % 256) ++ "." ++ dec h`. -/
def hostChars (c h : Nat) : List Char :=
  '1' :: '0' :: '.' :: (natChars (c / 256) ++ '.' :: (natChars (c % 256) ++ '.' :: natChars h))

/-- Printed address of host `h` in the subnet with counter value `c`. -/
def hostStr (c h : Nat) : String := String.mk (hostChars c h)

/-- The subnet base string built at line 117 for counter value `c`:
`"10.(c / 256).(c % 256).0"`. -/
def subnetBase (c : Nat) : String := hostStr c 0

theorem hostStr_inj {c h c' h' : Nat} (heq : hostStr c h = hostStr c' h') :
    c = c' ∧ h = h' := by
  have hlist : hostChars c h = hostChars c' h' := by
    have := congrArg String.data heq
    simpa [hostStr] using this
  unfold hostChars at hlist
  simp only [List.cons.injEq, true_and] at hlist
  rcases append_dot_inj _ _ (natChars_no_dot _) (natChars_no_dot _) _ _ hlist with ⟨hdiv, hrest⟩
  rcases append_dot_inj _ _ (natChars_no_dot _) (natChars_no_dot _) _ _ hrest with ⟨hmod, hh⟩
  have h1 : c / 256 = c' / 256 := natChars_inj hdiv
  have h2 : c % 256 = c' % 256 := natChars_inj hmod
  have h3 : h = h' := natChars_inj hh
  refine ⟨?_, h3⟩
  have := Nat.div_add_mod c 256
  have := Nat.div_add_mod c' 256
  omega

theorem subnetBase_inj {c c' : Nat} (h : subnetBase c = subnetBase c') : c = c' :=
  (hostStr_inj h).1

/-! ### Topology data model -/

/-- Mirror of `struct LinkSpec` (lines 24-30). -/
structure LinkSpec where
  src : Nat
  dst : Nat
  bw : String
  delay : String
  deriving DecidableEq

/-! ### Subnet allocation loop

Lines 106-124: `subnetIndex` starts at `1`; for each link (in topology order)
the subnet base is derived from the current counter value and the counter is
incremented afterwards. -/

/-- Subnet base strings produced by the address-allocation loop, starting
from counter value `c`. -/
def allocBasesGo : List LinkSpec → Nat → List String
  | [], _ => []
  | _ :: rest, c => subnetBase c :: allocBasesGo rest (c + 1)

/-- Subnet base strings of the whole run (`subnetIndex` starts at 1). -/
def allocBases (links : List LinkSpec) : List String := allocBasesGo links 1

theorem allocBasesGo_length (links : List LinkSpec) :
    ∀ c, (allocBasesGo links c).length = links.length := by
  induction links with
  | nil => intro c; rfl
  | cons lk rest ih => intro c; simp [allocBasesGo, ih]

theorem allocBasesGo_get (links : List LinkSpec) :
    ∀ c k (hk : k < (allocBasesGo links c).length),
      (allocBasesGo links c).get ⟨k, hk⟩ = subnetBase (c + k) := by
  induction links with
  | nil => intro c k hk; simp [allocBasesGo] at hk
  | cons lk rest ih =>
    intro c k hk
    cases k with
    | zero => simp [allocBasesGo]
    | succ k' =>
      have hk' : k' < (allocBasesGo rest (c + 1)).length := by
        simpa [allocBasesGo] using hk
      have := ih (c + 1) k' hk'
      simpa [allocBasesGo, Nat.add_assoc, Nat.add_comm 1 k'] using this

/-! ### The per-node address lists (`nodeIpv4Strings`, lines 108-124)

For each link the two printed endpoint addresses are appended (`push_back`)
to the source node's and destination node's address list.  The vector is
sized `nNodes`; an out-of-range link endpoint would be undefined behaviour
in the C++ (`nodeIpv4Strings[lk.src]`), so all theorems about the table
carry the in-range hypothesis. -/

/-- `nodeIpv4Strings[i].push_back(s)`. -/
def pushAddr (tbl : List (List String)) (i : Nat) (s : String) : List (List String) :=
  tbl.set i (tbl.getD i [] ++ [s])

/-- The link loop of lines 109-124, from counter value `c`. -/
def allocAddrsGo : List LinkSpec → Nat → List (List String) → List (List String)
  | [], _, tbl => tbl
  | lk :: rest, c, tbl =>
      allocAddrsGo rest (c + 1) (pushAddr (pushAddr tbl lk.src (hostStr c 1)) lk.dst (hostStr c 2))

/-- The complete `nodeIpv4Strings` table after the link loop. -/
def nodeAddrTable (nNodes : Nat) (links : List LinkSpec) : List (List String) :=
  allocAddrsGo links 1 (List.replicate nNodes [])

theorem length_pushAddr (tbl : List (List String)) (i : Nat) (s : String) :
    (pushAddr tbl i s).length = tbl.length := List.length_set ..

theorem length_allocAddrsGo (links : List LinkSpec) :
    ∀ c (tbl : List (List String)), (allocAddrsGo links c tbl).length = tbl.length := by
  induction links with
  | nil => intro c tbl; rfl
  | cons lk rest ih =>
    intro c tbl
    rw [allocAddrsGo, ih, length_pushAddr, length_pushAddr]

theorem length_nodeAddrTable (nNodes : Nat) (links : List LinkSpec) :
    (nodeAddrTable nNodes links).length = nNodes := by
  rw [nodeAddrTable, length_allocAddrsGo, List.length_replicate]

theorem getD_pushAddr (tbl : List (List String)) (i : Nat) (s : String) (n : Nat) :
    (pushAddr tbl i s).getD n [] =
      if n = i ∧ i < tbl.length then tbl.getD n [] ++ [s] else tbl.getD n [] := by
  unfold pushAddr
  by_cases hn : n = i
  · subst hn
    by_cases hi : n < tbl.length
    · simp [List.getD_eq_getElem?_getD, List.getElem?_set_self hi, hi]
    · rw [List.set_eq_of_length_le (Nat.le_of_not_lt hi)]
      simp [hi]
  · rw [List.getD_eq_getElem?_getD, List.getElem?_set_ne (fun h => hn h.symm)]
    simp [hn, List.getD_eq_getElem?_getD]

/-- `a` is one of the addresses recorded for node `n` by the link loop,
run from counter value `c`. -/
def AddedBy (links : List LinkSpec) (c n : Nat) (a : String) : Prop :=
  ∃ k, ∃ hk : k < links.length,
    (n = (links.get ⟨k, hk⟩).src ∧ a = hostStr (c + k) 1) ∨
    (n = (links.get ⟨k, hk⟩).dst ∧ a = hostStr (c + k) 2)

theorem addedBy_nil {c n : Nat} {a : String} : ¬ AddedBy [] c n a := by
  rintro ⟨k, hk, _⟩
  simp at hk

theorem addedBy_cons {lk : LinkSpec} {rest : List LinkSpec} {c n : Nat} {a : String} :
    AddedBy (lk :: rest) c n a ↔
      ((n = lk.src ∧ a = hostStr c 1) ∨ (n = lk.dst ∧ a = hostStr c 2)) ∨
        AddedBy rest (c + 1) n a := by
  constructor
  · rintro ⟨k, hk, hcase⟩
    cases k with
    | zero => left; simpa using hcase
    | succ k' =>
      right
      refine ⟨k', by simpa using hk, ?_⟩
      have harith : c + (k' + 1) = c + 1 + k' := by omega
      simpa [harith] using hcase
  · rintro (hcase | ⟨k, hk, hcase⟩)
    · exact ⟨0, by simp, by simpa using hcase⟩
    · refine ⟨k + 1, by simpa using hk, ?_⟩
      have harith : c + (k + 1) = c + 1 + k := by omega
      simpa [harith] using hcase

theorem mem_allocAddrsGo (links : List LinkSpec) :
    ∀ c (tbl : List (List String)),
      (∀ lk ∈ links, lk.src < tbl.length ∧ lk.dst < tbl.length) →
      ∀ n a, (a ∈ (allocAddrsGo links c tbl).getD n [] ↔
        a ∈ tbl.getD n [] ∨ AddedBy links c n a) := by
  induction links with
  | nil =>
    intro c tbl _ n a
    simp [allocAddrsGo, addedBy_nil]
  | cons lk rest ih =>
    intro c tbl hr n a
    have hsrc : lk.src < tbl.length := (hr lk (List.mem_cons_self _ _)).1
    have hdst : lk.dst < tbl.length := (hr lk (List.mem_cons_self _ _)).2
    have hlen' : (pushAddr (pushAddr tbl lk.src (hostStr c 1)) lk.dst (hostStr c 2)).length
        = tbl.length := by rw [length_pushAddr, length_pushAddr]
    have hr' : ∀ l ∈ rest,
        l.src < (pushAddr (pushAddr tbl lk.src (hostStr c 1)) lk.dst (hostStr c 2)).length ∧
        l.dst < (pushAddr (pushAddr tbl lk.src (hostStr c 1)) lk.dst (hostStr c 2)).length := by
      intro l hl
      rw [hlen']
      exact hr l (List.mem_cons_of_mem _ hl)
    rw [allocAddrsGo, ih (c + 1) _ hr' n a, addedBy_cons]
    have hmem1 : ∀ (t : List (List String)) (i : Nat) (s : String) (b : String),
        i < t.length → (b ∈ (pushAddr t i s).getD n [] ↔ b ∈ t.getD n [] ∨ (n = i ∧ b = s)) := by
      intro t i s b hi
      rw [getD_pushAddr]
      by_cases hn : n = i
      · simp [hn, hi, List.mem_append]
      · simp [hn]
    have hdst' : lk.dst < (pushAddr tbl lk.src (hostStr c 1)).length := by
      rw [length_pushAddr]; exact hdst
    rw [hmem1 _ _ _ _ hdst', hmem1 _ _ _ _ hsrc]
    tauto

theorem getD_replicate_nil (nNodes n : Nat) :
    (List.replicate nNodes ([] : List String)).getD n [] = [] := by
  rw [List.getD_eq_getElem?_getD, List.getElem?_replicate]
  by_cases h : n < nNodes <;> simp [h]

/-- Membership in the finished table is exactly `AddedBy links 1`. -/
theorem mem_nodeAddrTable {nNodes : Nat} {links : List LinkSpec}
    (hr : ∀ lk ∈ links, lk.src < nNodes ∧ lk.dst < nNodes) (n : Nat) (a : String) :
    a ∈ (nodeAddrTable nNodes links).getD n [] ↔ AddedBy links 1 n a := by
  have hr' : ∀ lk ∈ links, lk.src < (List.replicate nNodes ([] : List String)).length ∧
      lk.dst < (List.replicate nNodes ([] : List String)).length := by
    simpa using hr
  rw [nodeAddrTable, mem_allocAddrsGo links 1 _ hr' n a, getD_replicate_nil]
  simp

/-- A given address string is recorded for at most one node. -/
theorem addedBy_unique {links : List LinkSpec} {c n m : Nat} {a : String}
    (h1 : AddedBy links c n a) (h2 : AddedBy links c m a) : n = m := by
  rcases h1 with ⟨k, hk, hcase1⟩
  rcases h2 with ⟨k', hk', hcase2⟩
  rcases hcase1 with ⟨hn, ha⟩ | ⟨hn, ha⟩ <;> rcases hcase2 with ⟨hm, hb⟩ | ⟨hm, hb⟩
  · have := hostStr_inj (ha.symm.trans hb)
    have hkk : k = k' := by omega
    subst hkk
    rw [hn, hm]
  · have := hostStr_inj (ha.symm.trans hb)
    omega
  · have := hostStr_inj (ha.symm.trans hb)
    omega
  · have := hostStr_inj (ha.symm.trans hb)
    have hkk : k = k' := by omega
    subst hkk
    rw [hn, hm]

/-! ### The metrics address-to-node lookup (lines 275-286)

`srcIdx`/`dstIdx` start at `-1`; a linear scan over every node's address
list overwrites the accumulator with the node index on every string match. -/

/-- The inner loop `for (auto& s : nodeIpv4Strings[n]) if (s == ip) idx = n;`. -/
def scanList : List String → String → Nat → Int → Int
  | [], _, _, acc => acc
  | s :: rest, ip, n, acc => scanList rest ip n (if s = ip then (n : Int) else acc)

/-- The outer loop over node indices `n = 0, 1, ...`. -/
def lookupGo : List (List String) → String → Nat → Int → Int
  | [], _, _, acc => acc
  | l :: ls, ip, n, acc => lookupGo ls ip (n + 1) (scanList l ip n acc)

/-- Address-to-node-index resolution of the metrics collector; `-1` when the
address is recorded nowhere. -/
def lookupIdx (tbl : List (List String)) (ip : String) : Int := lookupGo tbl ip 0 (-1)

theorem scanList_eq (l : List String) (ip : String) (n : Nat) :
    ∀ acc, scanList l ip n acc = if ip ∈ l then (n : Int) else acc := by
  induction l with
  | nil => intro acc; simp [scanList]
  | cons s rest ih =>
    intro acc
    rw [scanList, ih]
    by_cases hmem : ip ∈ rest
    · simp [hmem, List.mem_cons]
    · by_cases hs : s = ip
      · simp [hmem, hs, List.mem_cons]
      · have hips : ¬ (ip = s) := fun hc => hs hc.symm
        simp [hmem, hs, hips, List.mem_cons]

theorem lookupGo_not_mem (tbl : List (List String)) (ip : String) :
    ∀ n acc, (∀ l ∈ tbl, ip ∉ l) → lookupGo tbl ip n acc = acc := by
  induction tbl with
  | nil => intro n acc _; rfl
  | cons l ls ih =>
    intro n acc hno
    rw [lookupGo, scanList_eq, if_neg (hno l (List.mem_cons_self _ _))]
    exact ih (n + 1) acc (fun l' hl' => hno l' (List.mem_cons_of_mem _ hl'))

theorem lookupGo_found (tbl : List (List String)) (ip : String) :
    ∀ m n acc (hm : m < tbl.length), ip ∈ tbl.get ⟨m, hm⟩ →
      (∀ j (hj : j < tbl.length), j ≠ m → ip ∉ tbl.get ⟨j, hj⟩) →
      lookupGo tbl ip n acc = (n : Int) + m := by
  induction tbl with
  | nil => intro m n acc hm; simp at hm
  | cons l ls ih =>
    intro m n acc hm hmem huniq
    cases m with
    | zero =>
      have hl : ip ∈ l := by simpa using hmem
      have hno : ∀ l' ∈ ls, ip ∉ l' := by
        intro l' hl'
        rcases List.get_of_mem hl' with ⟨⟨j, hj⟩, rfl⟩
        have hj' : j + 1 < (l :: ls).length := by simpa using hj
        have := huniq (j + 1) hj' (by omega)
        simpa using this
      rw [lookupGo, scanList_eq, if_pos hl, lookupGo_not_mem ls ip _ _ hno]
      simp
    | succ m' =>
      have hm' : m' < ls.length := by simpa using hm
      have hmem' : ip ∈ ls.get ⟨m', hm'⟩ := by simpa using hmem
      have hnotl : ip ∉ l := by
        have := huniq 0 (by simp) (by omega)
        simpa using this
      have huniq' : ∀ j (hj : j < ls.length), j ≠ m' → ip ∉ ls.get ⟨j, hj⟩ := by
        intro j hj hne
        have hj' : j + 1 < (l :: ls).length := by simpa using hj
        have := huniq (j + 1) hj' (by omega)
        simpa using this
      rw [lookupGo, scanList_eq, if_neg hnotl, ih m' (n + 1) acc hm' hmem' huniq']
      push_cast
      ring

/-! ### JSON values and the nlohmann access primitives used by `main`

Only the fragment exercised by the program is modelled: null, non-negative
integers, strings, arrays and objects.  nlohmann operations that throw
(`type_error`, `parse_error`) are modelled with `Except Unit`; an exception
escaping `main` (the topology block has no handler) terminates the
process. -/

inductive JVal where
  | null : JVal
  | num (n : Nat) : JVal
  | str (s : String) : JVal
  | arr (elems : List JVal) : JVal
  | obj (fields : List (String × JVal)) : JVal

/-- Object member lookup (nlohmann objects have unique keys). -/
def objFind : List (String × JVal) → String → Option JVal
  | [], _ => none
  | (k, v) :: rest, key => if k = key then some v else objFind rest key

/-- Member access on a possibly-non-object value (`j.contains(key)` is
`false` on non-objects; member lookup yields nothing). -/
def jField (j : JVal) (key : String) : Option JVal :=
  match j with
  | .obj fs => objFind fs key
  | _ => none

/-- `static_cast<uint32_t>` of a JSON integer. -/
def toU32 (n : Nat) : Nat := n % 4294967296

/-- `j.value(key, dflt)` for an unsigned default: throws on a non-object
(`type_error.306`) and on a present member of non-numeric type
(`type_error.302`); yields the default only when the key is absent. -/
def valueNat (j : JVal) (key : String) (dflt : Nat) : Except Unit Nat :=
  match j with
  | .obj fs =>
    match objFind fs key with
    | none => .ok dflt
    | some (.num n) => .ok (toU32 n)
    | some _ => .error ()
  | _ => .error ()

/-- `j.value(key, dflt)` for a string default (same throw behaviour). -/
def valueStr (j : JVal) (key : String) (dflt : String) : Except Unit String :=
  match j with
  | .obj fs =>
    match objFind fs key with
    | none => .ok dflt
    | some (.str s) => .ok s
    | some _ => .error ()
  | _ => .error ()

/-- `uint32_t x = j[key];` — non-const `operator[]` followed by conversion
to `uint32_t`.  On a non-object (including null, which `operator[]` would
first turn into an object with a null member) or on a missing or
non-numeric member the conversion throws. -/
def getNatField (j : JVal) (key : String) : Except Unit Nat :=
  match j with
  | .obj fs =>
    match objFind fs key with
    | some (.num n) => .ok (toU32 n)
    | _ => .error ()
  | _ => .error ()

/-- Range-`for` over `j[key]`: a missing member is created as null and
iterates as the empty range; arrays iterate their elements, objects their
member values, null the empty range, and any other primitive a
single-element range holding the value itself. -/
def iterVals : Option JVal → List JVal
  | none => []
  | some .null => []
  | some (.arr xs) => xs
  | some (.obj fs) => fs.map Prod.snd
  | some v => [v]

/-! ### Topology loading (lines 52-73) -/

/-- The topology input as `main` can observe it: the file fails to open
(`return 1`), it opens but `operator>>` fails to parse it (uncaught
`parse_error`), or it parses to a JSON value. -/
inductive TopoSource where
  | unopenable : TopoSource
  | unparseable : TopoSource
  | parsed (j : JVal) : TopoSource

inductive LoadOutcome where
  | openFail : LoadOutcome
  | thrown : LoadOutcome
  | loaded (nNodes : Nat) (links : List LinkSpec) : LoadOutcome

/-- One iteration of the link loop body (lines 67-72): `src` and `dst` via
checked conversion, `bandwidth`/`delay` via `value` with defaults. -/
def parseLink (l : JVal) : Except Unit LinkSpec := do
  let s ← getNatField l "src"
  let d ← getNatField l "dst"
  let bw ← valueStr l "bandwidth" "10Mbps"
  let dl ← valueStr l "delay" "10ms"
  .ok ⟨s, d, bw, dl⟩

def parseLinks : List JVal → Except Unit (List LinkSpec)
  | [] => .ok []
  | l :: rest => do
    let s ← parseLink l
    let ls ← parseLinks rest
    .ok (s :: ls)

/-- Lines 52-73: open and parse the topology source, read
`nodes` (default 0) and the link list.  Any exception escapes `main`. -/
def loadTopology : TopoSource → LoadOutcome
  | .unopenable => .openFail
  | .unparseable => .thrown
  | .parsed j =>
    match valueNat j "nodes" 0 with
    | .error _ => .thrown
    | .ok n =>
      match parseLinks (iterVals (jField j "links")) with
      | .error _ => .thrown
      | .ok ls => .loaded n ls

/-- The member is present and numeric. -/
def fieldIsNum (o : Option JVal) : Bool :=
  match o with | some (JVal.num _) => true | _ => false

/-- The member is absent or a string. -/
def fieldAbsentOrStr (o : Option JVal) : Bool :=
  match o with | none => true | some (JVal.str _) => true | _ => false

/-- The member is absent or numeric. -/
def fieldAbsentOrNum (o : Option JVal) : Bool :=
  match o with | none => true | some (JVal.num _) => true | _ => false

/-- A link entry on which the loader provably does not throw: an object
with numeric `src`/`dst` and absent-or-string `bandwidth`/`delay`. -/
def goodLink (l : JVal) : Bool :=
  match l with
  | .obj fs =>
    fieldIsNum (objFind fs "src") && fieldIsNum (objFind fs "dst") &&
    fieldAbsentOrStr (objFind fs "bandwidth") && fieldAbsentOrStr (objFind fs "delay")
  | _ => false

/-- The `links` member is absent, null, or an array of good link objects. -/
def linksWellFormed (o : Option JVal) : Bool :=
  match o with
  | none => true
  | some JVal.null => true
  | some (JVal.arr xs) => xs.all goodLink
  | _ => false

/-- A topology value on which the loader provably does not throw. -/
def goodTopo (j : JVal) : Bool :=
  match j with
  | .obj fs => fieldAbsentOrNum (objFind fs "nodes") && linksWellFormed (objFind fs "links")
  | _ => false

/-! ### `routing.json` (lines 134-187)

The whole block sits inside `try { ... } catch (...)`: a thrown exception
(unreadable JSON, ill-typed route fields) abandons the rest of the block but
the process continues.  Out-of-bounds container access is *not* an
exception: `nodes.Get(src)` with `src >= nNodes` is undefined behaviour,
modelled as `none`. -/

inductive RouteSource where
  | absent : RouteSource
  | unparseable : RouteSource
  | parsed (j : JVal) : RouteSource

/-- Flow-pair extraction (lines 146-154).  Returns the pairs collected so
far and whether the loop ran to completion (`false` = an entry threw, the
exception aborts the rest of the `try` block). -/
def extractPairs : List JVal → Nat → List (Nat × Nat) × Bool
  | [], _ => ([], true)
  | e :: rest, nNodes =>
    match getNatField e "src", getNatField e "dst" with
    | .ok s, .ok d =>
      let t := extractPairs rest nNodes
      (if s < nNodes ∧ d < nNodes ∧ s ≠ d then (s, d) :: t.1 else t.1, t.2)
    | _, _ => ([], false)

/-- One static route as handed to `AddHostRouteTo` (line 172-178). -/
structure RouteInst where
  node : Nat
  dstAddr : String
  via : String

/-- Static-route installation (lines 161-179).  `next_hop`/`dst` out of
range or with an empty address list are skipped; a throwing entry ends the
loop (caught, keeping earlier installs); `src` is *not* range-checked, so
`nodes.Get(src)` with `src ≥ nNodes` is out-of-bounds access — undefined
behaviour, modelled as `none`. -/
def installRoutes : List JVal → List (List String) → Option (List RouteInst)
  | [], _ => some []
  | e :: rest, tbl =>
    match getNatField e "src", getNatField e "dst", getNatField e "next_hop" with
    | .ok s, .ok d, .ok nx =>
      if nx ≥ tbl.length ∨ d ≥ tbl.length then installRoutes rest tbl
      else if (tbl.getD nx []).isEmpty ∨ (tbl.getD d []).isEmpty then installRoutes rest tbl
      else if s ≥ tbl.length then none
      else (installRoutes rest tbl).map
        (fun rs => ⟨s, (tbl.getD d []).headD "", (tbl.getD nx []).headD ""⟩ :: rs)
    | _, _, _ => some []

/-! ### Random flow generation and reconciliation (lines 190-203) -/

/-- `x % n` on `uint32_t`: modulo by zero is undefined behaviour. -/
def cppMod (x n : Nat) : Option Nat := if n = 0 then none else some (x % n)

/-- The collision loop `while (b == a) b = (b + 1) % nNodes;`.  From any
`b < nNodes` it terminates in at most one step when `nNodes ≥ 2` (because
`(a + 1) % nNodes ≠ a` then) and never terminates when `nNodes = 1`, so
fuel 2 separates the two exactly (`none` = divergence). -/
def bumpB : Nat → Nat → Nat → Nat → Option Nat
  | 0, _, _, _ => none
  | fuel + 1, nNodes, a, b =>
    if b = a then bumpB fuel nNodes a ((b + 1) % nNodes) else some b

/-- Lines 192-196: draw `a` and `b` with `rand() % nNodes` and resolve the
collision.  `ra`/`rb` are the two `rand()` results. -/
def drawPair (nNodes ra rb : Nat) : Option (Nat × Nat) := do
  let a ← cppMod ra nNodes
  let b0 ← cppMod rb nNodes
  let b ← bumpB 2 nNodes a b0
  pure (a, b)

/-- The `while (flowPairs.size() < nFlows)` loop (lines 190-197).  Each
iteration appends exactly one pair, so the loop runs `nFlows - |pairs|`
times; `rnd` is the stream of `rand()` results, consumed two per
iteration. -/
def padFlows : Nat → List (Nat × Nat) → Nat → (Nat → Nat) → Nat → Option (List (Nat × Nat))
  | 0, pairs, _, _, _ => some pairs
  | m + 1, pairs, nNodes, rnd, k =>
    match drawPair nNodes (rnd (2 * k)) (rnd (2 * k + 1)) with
    | none => none
    | some p => padFlows m (pairs ++ [p]) nNodes rnd (k + 1)

/-- Lines 190-203: pad with random pairs up to `nFlows`, then truncate
(`resize`) when more than `nFlows` were extracted. -/
def reconcile (extracted : List (Nat × Nat)) (nFlows nNodes : Nat) (rnd : Nat → Nat) :
    Option (List (Nat × Nat)) :=
  (padFlows (nFlows - extracted.length) extracted nNodes rnd 0).map
    (fun ps => if nFlows < ps.length then ps.take nFlows else ps)

/-! ### Traffic sessions (lines 206-231)

Per flow `f` over pair `(a, b)`: if node `b`'s address list is empty the
flow is skipped, otherwise a `PacketSink` is installed at `b` on port
`9000 + f` (`uint16_t`, hence mod 65536) and an `OnOff` sender at `a`
targeting `b`'s first address on the same port.  Timing and rate attributes
are not modelled; no claim concerns them. -/

structure Session where
  sinkNode : Nat
  senderNode : Nat
  port : Nat
  dstAddr : String
  deriving DecidableEq

def installFlow (tbl : List (List String)) (f : Nat) (pr : Nat × Nat) : Option Session :=
  match tbl.getD pr.2 [] with
  | [] => none
  | ip :: _ => some ⟨pr.2, pr.1, (9000 + f) % 65536, ip⟩

/-- The session loop, `f` counting up from the given start index. -/
def installSessionsGo : List (Nat × Nat) → Nat → List (List String) → List (Option Session)
  | [], _, _ => []
  | p :: rest, f, tbl => installFlow tbl f p :: installSessionsGo rest (f + 1) tbl

def installSessions (tbl : List (List String)) (pairs : List (Nat × Nat)) :
    List (Option Session) :=
  installSessionsGo pairs 0 tbl

/-! ### Metrics arithmetic (lines 288-293) -/

/-- Engine-reported per-flow counters (the fields of
`FlowMonitor::FlowStats` used by the claims; both are `uint32_t`). -/
structure FlowStats where
  txPackets : Nat
  rxPackets : Nat

/-- `uint32_t` subtraction. -/
def u32sub (x y : Nat) : Nat := (toU32 x + 4294967296 - toU32 y) % 4294967296

/-- Line 292-293: `(fs.txPackets - fs.rxPackets) / fs.txPackets * 100.0`.
Both operands of the subtraction and the division are `uint32_t`, so the
quotient is computed in integer arithmetic and only then promoted to
`double` for `* 100.0`; the resulting double is the exact integer
`((tx - rx) / tx) * 100` (it is below `2^53`). -/
def lossPct (tx rx : Nat) : Nat :=
  if 0 < toU32 tx then u32sub tx rx / toU32 tx * 100 else 0

/-! ### The driver (`main` end to end)

`stats` stands for the engine-reported flow statistics map (opaque: the
simulation engine is an external collaborator); the CSV gets one data row
per entry.  `crashed` covers undefined behaviour (out-of-bounds access,
modulo by zero) and uncaught exceptions — any abnormal termination. -/

inductive RunOutcome where
  | openFail : RunOutcome
  | crashed : RunOutcome
  | completed (sessions : List (Option Session)) (csvRows : Nat) : RunOutcome

/-- The `routing.json` block (lines 134-187): flow-pair extraction, then
static-route installation, under one `catch (...)`. -/
def routePhase (rsrc : RouteSource) (nNodes : Nat) (tbl : List (List String)) :
    Option (List (Nat × Nat)) :=
  match rsrc with
  | .absent => some []
  | .unparseable => some []
  | .parsed j =>
    if (jField j "routes").isSome then
      let entries := iterVals (jField j "routes")
      let ex := extractPairs entries nNodes
      if ex.2 then
        match installRoutes entries tbl with
        | none => none
        | some _ => some ex.1
      else some ex.1
    else some []

/-- `main` from topology load to CSV emission.  `rnd` is the `rand()`
stream, `stats` the engine's flow-statistics entries. -/
def runSim (tsrc : TopoSource) (rsrc : RouteSource) (nFlows : Nat) (rnd : Nat → Nat)
    (stats : List FlowStats) : RunOutcome :=
  match loadTopology tsrc with
  | .openFail => .openFail
  | .thrown => .crashed
  | .loaded nNodes links =>
    if links.all (fun lk => lk.src < nNodes && lk.dst < nNodes) then
      let tbl := nodeAddrTable nNodes links
      match routePhase rsrc nNodes tbl with
      | none => .crashed
      | some extracted =>
        match reconcile extracted nFlows nNodes rnd with
        | none => .crashed
        | some pairs => .completed (installSessions tbl pairs) stats.length
    else .crashed

/-! ### Helper lemmas about the embedded operations -/

theorem getD_eq_get_of_lt (l : List (List String)) (n : Nat) (h : n < l.length) :
    l.getD n [] = l.get ⟨n, h⟩ := by
  rw [List.getD_eq_getElem?_getD, List.getElem?_eq_getElem h]
  simp [List.get_eq_getElem]

theorem bumpB_spec {nNodes a b : Nat} (h2 : 2 ≤ nNodes) (hb : b < nNodes) :
    ∃ b', bumpB 2 nNodes a b = some b' ∧ b' ≠ a ∧ b' < nNodes := by
  by_cases hba : b = a
  · subst hba
    have hne : (b + 1) % nNodes ≠ b := by
      rcases Nat.lt_or_ge (b + 1) nNodes with h | h
      · rw [Nat.mod_eq_of_lt h]; omega
      · have hbn : b + 1 = nNodes := by omega
        rw [hbn, Nat.mod_self]; omega
    exact ⟨(b + 1) % nNodes, by simp [bumpB, hne], hne, Nat.mod_lt _ (by omega)⟩
  · exact ⟨b, by simp [bumpB, hba], hba, hb⟩

theorem drawPair_spec {nNodes : Nat} (h2 : 2 ≤ nNodes) (ra rb : Nat) :
    ∃ a b, drawPair nNodes ra rb = some (a, b) ∧ a ≠ b ∧ a < nNodes ∧ b < nNodes := by
  have hn0 : ¬ nNodes = 0 := by omega
  have hb0 : rb % nNodes < nNodes := Nat.mod_lt _ (by omega)
  rcases bumpB_spec (a := ra % nNodes) h2 hb0 with ⟨b', hbump, hne, hblt⟩
  refine ⟨ra % nNodes, b', ?_, fun hc => hne hc.symm, Nat.mod_lt _ (by omega), hblt⟩
  simp [drawPair, cppMod, hn0, hbump]

theorem padFlows_spec {nNodes : Nat} (h2 : 2 ≤ nNodes) (rnd : Nat → Nat) :
    ∀ m (pairs : List (Nat × Nat)) k,
      ∃ tail, padFlows m pairs nNodes rnd k = some (pairs ++ tail) ∧ tail.length = m := by
  intro m
  induction m with
  | zero => intro pairs k; exact ⟨[], by simp [padFlows], rfl⟩
  | succ m' ih =>
    intro pairs k
    rcases drawPair_spec h2 (rnd (2 * k)) (rnd (2 * k + 1)) with ⟨a, b, hdraw, _, _, _⟩
    rcases ih (pairs ++ [(a, b)]) (k + 1) with ⟨tail, hpad, hlen⟩
    refine ⟨(a, b) :: tail, ?_, by simp [hlen]⟩
    rw [padFlows, hdraw]
    exact hpad.trans (by simp)

theorem extractPairs_zero (entries : List JVal) : (extractPairs entries 0).1 = [] := by
  induction entries with
  | nil => rfl
  | cons e rest ih =>
    rw [extractPairs]
    cases getNatField e "src" with
    | error u => rfl
    | ok s =>
      cases getNatField e "dst" with
      | error u => rfl
      | ok d => simpa using ih

theorem installRoutes_nil_tbl (entries : List JVal) : installRoutes entries [] = some [] := by
  induction entries with
  | nil => rfl
  | cons e rest ih =>
    rw [installRoutes]
    cases getNatField e "src" with
    | error u => rfl
    | ok s =>
      cases getNatField e "dst" with
      | error u => rfl
      | ok d =>
        cases getNatField e "next_hop" with
        | error u => rfl
        | ok nx => simpa using ih

theorem routePhase_zero (rsrc : RouteSource) : routePhase rsrc 0 [] = some [] := by
  cases rsrc with
  | absent => rfl
  | unparseable => rfl
  | parsed j =>
    rw [routePhase]
    by_cases hC : (jField j "routes").isSome
    · rw [if_pos hC]
      by_cases hdone : (extractPairs (iterVals (jField j "routes")) 0).2
      · rw [if_pos hdone, installRoutes_nil_tbl, extractPairs_zero]
      · rw [if_neg hdone, extractPairs_zero]
    · rw [if_neg hC]

theorem fieldIsNum_spec {o : Option JVal} (h : fieldIsNum o = true) :
    ∃ n, o = some (JVal.num n) := by
  cases o with
  | none => exact absurd h (by simp [fieldIsNum])
  | some v =>
    cases v with
    | num n => exact ⟨n, rfl⟩
    | null => exact absurd h (by simp [fieldIsNum])
    | str s => exact absurd h (by simp [fieldIsNum])
    | arr xs => exact absurd h (by simp [fieldIsNum])
    | obj fs => exact absurd h (by simp [fieldIsNum])

theorem fieldAbsentOrStr_spec {o : Option JVal} (h : fieldAbsentOrStr o = true) :
    o = none ∨ ∃ s, o = some (JVal.str s) := by
  cases o with
  | none => exact Or.inl rfl
  | some v =>
    cases v with
    | str s => exact Or.inr ⟨s, rfl⟩
    | null => exact absurd h (by simp [fieldAbsentOrStr])
    | num n => exact absurd h (by simp [fieldAbsentOrStr])
    | arr xs => exact absurd h (by simp [fieldAbsentOrStr])
    | obj fs => exact absurd h (by simp [fieldAbsentOrStr])

theorem fieldAbsentOrNum_spec {o : Option JVal} (h : fieldAbsentOrNum o = true) :
    o = none ∨ ∃ n, o = some (JVal.num n) := by
  cases o with
  | none => exact Or.inl rfl
  | some v =>
    cases v with
    | num n => exact Or.inr ⟨n, rfl⟩
    | null => exact absurd h (by simp [fieldAbsentOrNum])
    | str s => exact absurd h (by simp [fieldAbsentOrNum])
    | arr xs => exact absurd h (by simp [fieldAbsentOrNum])
    | obj fs => exact absurd h (by simp [fieldAbsentOrNum])

theorem linksWellFormed_spec {o : Option JVal} (h : linksWellFormed o = true) :
    o = none ∨ o = some JVal.null ∨ ∃ xs, o = some (JVal.arr xs) ∧ ∀ l ∈ xs, goodLink l = true := by
  cases o with
  | none => exact Or.inl rfl
  | some v =>
    cases v with
    | null => exact Or.inr (Or.inl rfl)
    | arr xs =>
      refine Or.inr (Or.inr ⟨xs, rfl, ?_⟩)
      simpa [linksWellFormed, List.all_eq_true] using h
    | num n => exact absurd h (by simp [linksWellFormed])
    | str s => exact absurd h (by simp [linksWellFormed])
    | obj fs => exact absurd h (by simp [linksWellFormed])

theorem parseLink_good {l : JVal} (hgl : goodLink l = true) :
    ∃ s, parseLink l = Except.ok s ∧
      (jField l "bandwidth" = none → s.bw = "10Mbps") ∧
      (jField l "delay" = none → s.delay = "10ms") := by
  cases l with
  | obj fs =>
    rw [goodLink] at hgl
    simp only [Bool.and_eq_true] at hgl
    obtain ⟨⟨⟨hs, hd⟩, hb⟩, hl⟩ := hgl
    obtain ⟨ns, hsf⟩ := fieldIsNum_spec hs
    obtain ⟨nd, hdf⟩ := fieldIsNum_spec hd
    rcases fieldAbsentOrStr_spec hb with hbf | ⟨sb, hbf⟩ <;>
      rcases fieldAbsentOrStr_spec hl with hlf | ⟨sl, hlf⟩
    · refine ⟨⟨toU32 ns, toU32 nd, "10Mbps", "10ms"⟩, ?_, fun _ => rfl, fun _ => rfl⟩
      simp only [parseLink, getNatField, valueStr, hsf, hdf, hbf, hlf]; rfl
    · refine ⟨⟨toU32 ns, toU32 nd, "10Mbps", sl⟩, ?_, fun _ => rfl, ?_⟩
      · simp only [parseLink, getNatField, valueStr, hsf, hdf, hbf, hlf]; rfl
      · intro hnone; rw [jField, hlf] at hnone; cases hnone
    · refine ⟨⟨toU32 ns, toU32 nd, sb, "10ms"⟩, ?_, ?_, fun _ => rfl⟩
      · simp only [parseLink, getNatField, valueStr, hsf, hdf, hbf, hlf]; rfl
      · intro hnone; rw [jField, hbf] at hnone; cases hnone
    · refine ⟨⟨toU32 ns, toU32 nd, sb, sl⟩, ?_, ?_, ?_⟩
      · simp only [parseLink, getNatField, valueStr, hsf, hdf, hbf, hlf]; rfl
      · intro hnone; rw [jField, hbf] at hnone; cases hnone
      · intro hnone; rw [jField, hlf] at hnone; cases hnone
  | null => cases hgl
  | num n => cases hgl
  | str s => cases hgl
  | arr xs => cases hgl

theorem parseLinks_good {ls : List JVal} (h : ∀ l ∈ ls, goodLink l = true) :
    ∃ out, parseLinks ls = Except.ok out ∧ out.length = ls.length := by
  induction ls with
  | nil => exact ⟨[], rfl, rfl⟩
  | cons l rest ih =>
    rcases parseLink_good (h l (List.mem_cons_self _ _)) with ⟨s, hok, _, _⟩
    rcases ih (fun l' hl' => h l' (List.mem_cons_of_mem _ hl')) with ⟨out, hrest, hlen⟩
    refine ⟨s :: out, ?_, by simp [hlen]⟩
    rw [parseLinks]
    rw [hok, hrest]
    rfl

theorem installSessionsGo_getD (pairs : List (Nat × Nat)) :
    ∀ f0 (tbl : List (List String)) k (hk : k < pairs.length),
      (installSessionsGo pairs f0 tbl).getD k none =
        installFlow tbl (f0 + k) (pairs.get ⟨k, hk⟩) := by
  induction pairs with
  | nil => intro f0 tbl k hk; simp at hk
  | cons p rest ih =>
    intro f0 tbl k hk
    cases k with
    | zero => simp [installSessionsGo]
    | succ k' =>
      have hk' : k' < rest.length := by simpa using hk
      have harith : f0 + (k' + 1) = f0 + 1 + k' := by omega
      rw [installSessionsGo, List.getD_cons_succ, ih (f0 + 1) tbl k' hk', harith]
      simp

theorem installFlow_eq (tbl : List (List String)) (f a b : Nat) :
    installFlow tbl f (a, b) = match tbl.getD b [] with
      | [] => none
      | ip :: _ => some ⟨b, a, (9000 + f) % 65536, ip⟩ := rfl

/-! ## The claims -/

/-- C1: the spec asks for the exact loss ratio
`(txPackets - rxPackets) / txPackets * 100` (e.g. `50` for 10 tx / 5 rx),
but line 293 divides the two `uint32_t` counters *before* promoting to
`double`, so the emitted loss is the integer quotient times 100: for
`txPackets = 10, rxPackets = 5` the program emits `0`, not `50`. -/
theorem c1_loss_integer_division : lossPct 10 5 = 0 ∧ lossPct 0 5 = 0 := by decide

/-- C2 (counterexample): a parsed topology `{}` (node count absent, hence 0)
with the default 50 requested flows does not complete: the random-pair loop
evaluates `rand() % nNodes` with `nNodes = 0`, modulo by zero — undefined
behaviour (modelled `crashed`), not a no-op run exiting 0. -/
theorem c2_zero_nodes_default_flows_crash :
    runSim (TopoSource.parsed (JVal.obj [])) RouteSource.absent 50 (fun _ => 0) [] =
      RunOutcome.crashed := rfl

/-- C2 (amended): for a zero-node topology (absent node count) and requested
flow count 0, every step is a no-op: the run completes (exit code 0) with no
sessions installed and one CSV data row per engine statistics entry — none
when the engine reports no flows, giving the header-only CSV. -/
theorem c2_zero_nodes_zero_flows (rsrc : RouteSource) (rnd : Nat → Nat)
    (stats : List FlowStats) :
    runSim (TopoSource.parsed (JVal.obj [])) rsrc 0 rnd stats =
      RunOutcome.completed [] stats.length := by
  have hstep : runSim (TopoSource.parsed (JVal.obj [])) rsrc 0 rnd stats =
      match routePhase rsrc 0 [] with
      | none => RunOutcome.crashed
      | some extracted =>
        match reconcile extracted 0 0 rnd with
        | none => RunOutcome.crashed
        | some pairs => RunOutcome.completed (installSessions [] pairs) stats.length := rfl
  rw [hstep, routePhase_zero]
  rfl

/-- C3: with `nNodes ≥ 2` the reconciliation loop terminates and yields
exactly the requested number of flow pairs: the extracted pairs come first
(in order), random pairs are appended while below the target, and an
over-long extraction is truncated to the earliest `nFlows` pairs. -/
theorem c3_flow_count_reconciliation (extracted : List (Nat × Nat)) (nFlows nNodes : Nat)
    (rnd : Nat → Nat) (h2 : 2 ≤ nNodes) :
    ∃ res, reconcile extracted nFlows nNodes rnd = some res ∧
      res.length = nFlows ∧
      res.take extracted.length = extracted.take nFlows ∧
      (nFlows ≤ extracted.length → res = extracted.take nFlows) ∧
      (extracted.length ≤ nFlows → ∃ gen, res = extracted ++ gen) := by
  rcases padFlows_spec h2 rnd (nFlows - extracted.length) extracted 0 with ⟨tail, hpad, hlen⟩
  rw [reconcile, hpad]
  refine ⟨if nFlows < (extracted ++ tail).length then (extracted ++ tail).take nFlows
    else extracted ++ tail, rfl, ?_⟩
  rcases le_or_lt nFlows extracted.length with hge | hlt
  · have htail : tail = [] := List.length_eq_zero.mp (by omega)
    subst htail
    simp only [List.append_nil]
    by_cases hx : nFlows < extracted.length
    · simp only [if_pos hx]
      refine ⟨?_, ?_, ?_, ?_⟩
      · rw [List.length_take]; omega
      · rw [List.take_take, Nat.min_eq_right (Nat.le_of_lt hx)]
      · intro hle2; trivial
      · intro hle; exact absurd hle (by omega)
    · have hEq : nFlows = extracted.length := by omega
      simp only [if_neg hx]
      refine ⟨hEq.symm, ?_, ?_, ?_⟩
      · rw [hEq]
      · intro _; rw [hEq, List.take_length]
      · intro _; exact ⟨[], (List.append_nil _).symm⟩
  · have hlenres : (extracted ++ tail).length = nFlows := by
      rw [List.length_append]; omega
    have hnotlt : ¬ nFlows < (extracted ++ tail).length := by omega
    simp only [if_neg hnotlt]
    refine ⟨hlenres, ?_, ?_, fun _ => ⟨tail, rfl⟩⟩
    · rw [List.take_left, List.take_of_length_le (Nat.le_of_lt hlt)]
    · intro hcontra; exact absurd hcontra (by omega)

theorem c3_witness :
    ∃ res, reconcile [(0, 1)] 3 2 (fun _ => 0) = some res ∧ res.length = 3 := by
  obtain ⟨res, h1, h2, _, _, _⟩ := c3_flow_count_reconciliation [(0, 1)] 3 2 (fun _ => 0) (by decide)
  exact ⟨res, h1, h2⟩

/-- C4 (counterexample): a topology source that opens and parses, but whose
link entry carries a non-numeric `src`, terminates the process through an
uncaught conversion exception instead of completing the load. -/
theorem c4_malformed_link_field_throws :
    loadTopology (TopoSource.parsed (JVal.obj [("nodes", JVal.num 2),
      ("links", JVal.arr [JVal.obj [("src", JVal.str "x"), ("dst", JVal.num 1)]])])) =
      LoadOutcome.thrown := rfl

theorem loadTopology_parsed_ne_openFail (j : JVal) :
    loadTopology (TopoSource.parsed j) ≠ LoadOutcome.openFail := by
  intro h
  cases hv : valueNat j "nodes" 0 with
  | error u => simp [loadTopology, hv] at h
  | ok n =>
    cases hp : parseLinks (iterVals (jField j "links")) with
    | error u => simp [loadTopology, hv, hp] at h
    | ok ls => simp [loadTopology, hv, hp] at h

/-- C4 (amended): exit code 1 arises exactly when the topology source cannot
be opened; loading completes (without terminating the process) for every
openable source that parses to an object whose `nodes` member is absent or
numeric and whose link entries carry numeric `src`/`dst` and
absent-or-string `bandwidth`/`delay`, with a *missing* bandwidth or delay
falling back to `"10Mbps"`/`"10ms"`; malformed JSON, a present but
non-numeric `nodes` member (line 63, `value` → `get<uint32_t>`), or
ill-typed link fields instead raise an uncaught exception (abnormal
termination, not exit 1). -/
theorem c4_load_behaviour :
    (∀ tsrc, loadTopology tsrc = LoadOutcome.openFail ↔ tsrc = TopoSource.unopenable) ∧
    (∀ l, goodLink l = true → ∃ s, parseLink l = Except.ok s ∧
      (jField l "bandwidth" = none → s.bw = "10Mbps") ∧
      (jField l "delay" = none → s.delay = "10ms")) ∧
    (∀ j, goodTopo j = true →
      ∃ n ls, loadTopology (TopoSource.parsed j) = LoadOutcome.loaded n ls ∧
        ls.length = (iterVals (jField j "links")).length) ∧
    (∀ fs v, objFind fs "nodes" = some v → fieldIsNum (some v) = false →
      loadTopology (TopoSource.parsed (JVal.obj fs)) = LoadOutcome.thrown) := by
  refine ⟨?_, fun l hgl => parseLink_good hgl, ?_, ?_⟩
  · intro tsrc
    cases tsrc with
    | unopenable => simp [loadTopology]
    | unparseable =>
      constructor
      · intro h; simp [loadTopology] at h
      · intro h; cases h
    | parsed j =>
      constructor
      · intro h; exact absurd h (loadTopology_parsed_ne_openFail j)
      · intro h; cases h
  · intro j hgt
    cases j with
    | obj fs =>
      rw [goodTopo] at hgt
      simp only [Bool.and_eq_true] at hgt
      obtain ⟨hn, hlinks⟩ := hgt
      obtain ⟨n0, hval⟩ : ∃ n0, valueNat (JVal.obj fs) "nodes" 0 = .ok n0 := by
        rcases fieldAbsentOrNum_spec hn with hnone | ⟨k, hsome⟩
        · exact ⟨0, by simp [valueNat, hnone]⟩
        · exact ⟨toU32 k, by simp [valueNat, hsome]⟩
      obtain ⟨out, hout, hlen⟩ : ∃ out,
          parseLinks (iterVals (jField (JVal.obj fs) "links")) = .ok out ∧
          out.length = (iterVals (jField (JVal.obj fs) "links")).length := by
        rcases linksWellFormed_spec hlinks with hnone | hnull | ⟨xs, hsome, hall⟩
        · simp only [jField]; rw [hnone]; exact ⟨[], rfl, rfl⟩
        · simp only [jField]; rw [hnull]; exact ⟨[], rfl, rfl⟩
        · simp only [jField]; rw [hsome]
          rcases parseLinks_good hall with ⟨out, hok, hl⟩
          exact ⟨out, hok, by simpa [iterVals] using hl⟩
      exact ⟨n0, out, by simp [loadTopology, hval, hout], hlen⟩
    | null => simp [goodTopo] at hgt
    | num n => simp [goodTopo] at hgt
    | str s => simp [goodTopo] at hgt
    | arr xs => simp [goodTopo] at hgt
  · intro fs v hfind hnotnum
    have herr : valueNat (JVal.obj fs) "nodes" 0 = .error () := by
      cases v with
      | num n => simp [fieldIsNum] at hnotnum
      | null => simp [valueNat, hfind]
      | str s => simp [valueNat, hfind]
      | arr xs => simp [valueNat, hfind]
      | obj fs2 => simp [valueNat, hfind]
    simp [loadTopology, herr]

theorem c4_witness :
    (∃ n ls, loadTopology (TopoSource.parsed (JVal.obj [("nodes", JVal.num 3)])) =
      LoadOutcome.loaded n ls ∧
      ls.length = (iterVals (jField (JVal.obj [("nodes", JVal.num 3)]) "links")).length) ∧
    loadTopology (TopoSource.parsed (JVal.obj [("nodes", JVal.str "x")])) =
      LoadOutcome.thrown :=
  ⟨c4_load_behaviour.2.2.1 (JVal.obj [("nodes", JVal.num 3)]) (by decide),
    c4_load_behaviour.2.2.2 [("nodes", JVal.str "x")] (JVal.str "x") rfl rfl⟩

/-- C5: static-route installation checks `next_hop` and `dst` (range and
non-empty address list) but never `src`; on a 2-node topology with one
addressed link, the entry `{src: 5, dst: 0, next_hop: 1}` passes every
check and reaches `nodes.Get(5)` — an out-of-bounds access (undefined
behaviour, modelled `none`), not the silent no-op the claim states.  The
sibling flow-extraction loop (line 150) does validate `src`, so the missing
check contradicts the documented silent-skip design. -/
theorem c5_route_src_unchecked :
    installRoutes [JVal.obj [("src", JVal.num 5), ("dst", JVal.num 0), ("next_hop", JVal.num 1)]]
      (nodeAddrTable 2 [⟨0, 1, "10Mbps", "10ms"⟩]) = none := rfl

/-- C6: the address-allocation loop installs exactly one subnet per link,
derived from the counter that starts at 1 and increments once per link, and
no two links ever receive the same base string
`10.(c / 256).(c % 256).0` (the base determines the counter value). -/
theorem c6_subnet_bases_unique (links : List LinkSpec) :
    (allocBases links).length = links.length ∧
    ∀ i j (hi : i < (allocBases links).length) (hj : j < (allocBases links).length),
      i ≠ j → (allocBases links).get ⟨i, hi⟩ ≠ (allocBases links).get ⟨j, hj⟩ := by
  constructor
  · rw [allocBases, allocBasesGo_length]
  · intro i j hi hj hne heq
    simp only [allocBases] at hi hj heq
    rw [allocBasesGo_get links 1 i hi, allocBasesGo_get links 1 j hj] at heq
    have := subnetBase_inj heq
    exact hne (by omega)

theorem c6_witness :
    (allocBases [⟨0, 1, "10Mbps", "10ms"⟩, ⟨1, 2, "5Mbps", "2ms"⟩]).get ⟨0, by decide⟩ ≠
      (allocBases [⟨0, 1, "10Mbps", "10ms"⟩, ⟨1, 2, "5Mbps", "2ms"⟩]).get ⟨1, by decide⟩ :=
  (c6_subnet_bases_unique _).2 0 1 (by decide) (by decide) (by decide)

/-- C7: every randomly generated flow pair has distinct endpoints: for
`nNodes ≥ 2` the draw succeeds and the collision resolution
(`b = (b + 1) % nNodes` while `b == a`) leaves `a ≠ b`. -/
theorem c7_random_pair_distinct (nNodes ra rb : Nat) (h2 : 2 ≤ nNodes) :
    ∃ a b, drawPair nNodes ra rb = some (a, b) ∧ a ≠ b := by
  rcases drawPair_spec h2 ra rb with ⟨a, b, hdraw, hne, _, _⟩
  exact ⟨a, b, hdraw, hne⟩

theorem c7_witness : ∃ a b, drawPair 2 0 0 = some (a, b) ∧ a ≠ b :=
  c7_random_pair_distinct 2 0 0 (by decide)

/-- C8: round-trip — every address the allocator records for node `n`
resolves back to `n` through the metrics collector's linear last-match-wins
scan (recorded addresses are pairwise distinct across nodes), and an
address recorded nowhere resolves to the sentinel `-1`. -/
theorem c8_lookup_roundtrip (nNodes : Nat) (links : List LinkSpec)
    (hr : ∀ lk ∈ links, lk.src < nNodes ∧ lk.dst < nNodes)
    (_hcap : links.length ≤ 65535) :
    (∀ n a, n < nNodes → a ∈ (nodeAddrTable nNodes links).getD n [] →
      lookupIdx (nodeAddrTable nNodes links) a = (n : Int)) ∧
    (∀ a, (∀ l ∈ nodeAddrTable nNodes links, a ∉ l) →
      lookupIdx (nodeAddrTable nNodes links) a = -1) := by
  constructor
  · intro n a hn hmem
    have hlen : (nodeAddrTable nNodes links).length = nNodes := length_nodeAddrTable nNodes links
    have hadd : AddedBy links 1 n a := (mem_nodeAddrTable hr n a).mp hmem
    have hn' : n < (nodeAddrTable nNodes links).length := by omega
    have hget : a ∈ (nodeAddrTable nNodes links).get ⟨n, hn'⟩ := by
      rw [← getD_eq_get_of_lt]
      exact hmem
    have huniq : ∀ j (hj : j < (nodeAddrTable nNodes links).length), j ≠ n →
        a ∉ (nodeAddrTable nNodes links).get ⟨j, hj⟩ := by
      intro j hj hne hmem'
      have hj' : a ∈ (nodeAddrTable nNodes links).getD j [] := by
        rw [getD_eq_get_of_lt _ _ hj]; exact hmem'
      have hja : AddedBy links 1 j a := (mem_nodeAddrTable hr j a).mp hj'
      exact hne (addedBy_unique hja hadd)
    have hfound := lookupGo_found (nodeAddrTable nNodes links) a n 0 (-1) hn' hget huniq
    rw [lookupIdx, hfound]
    omega
  · intro a hno
    rw [lookupIdx, lookupGo_not_mem _ _ _ _ hno]

theorem c8_witness :
    lookupIdx (nodeAddrTable 2 [⟨0, 1, "10Mbps", "10ms"⟩]) "10.0.1.1" = ((0 : Nat) : Int) :=
  (c8_lookup_roundtrip 2 [⟨0, 1, "10Mbps", "10ms"⟩] (by decide) (by decide)).1 0 "10.0.1.1"
    (by decide) (by decide)

/-- C9 (counterexample): the loop port is the `uint16_t` `9000 + f`; at flow
index 56536 (reachable, since the requested flow count is a `uint32_t`) the
installed receiving session's port is 0, not `9000 + 56536`. -/
theorem c9_port_wraps_at_56536 :
    installFlow (nodeAddrTable 2 [⟨0, 1, "10Mbps", "10ms"⟩]) 56536 (0, 1) =
      some ⟨1, 0, 0, "10.0.1.2"⟩ ∧ (0 : Nat) ≠ 9000 + 56536 := ⟨rfl, by decide⟩

/-- C9 (amended): per flow `f` over pair `(a, b)`: a destination with an
empty address list yields no session at all (silent skip); otherwise the
receiving session sits at `b` on port `(9000 + f) mod 65536` — equal to
`9000 + f` whenever that sum fits a `uint16_t` — and the sending session at
`a` targets `b`'s first recorded address on the same port. -/
theorem c9_session_per_flow (tbl : List (List String)) (pairs : List (Nat × Nat)) (f a b : Nat)
    (hf : f < pairs.length) (hp : pairs.get ⟨f, hf⟩ = (a, b)) :
    (installSessions tbl pairs).getD f none = installFlow tbl f (a, b) ∧
    (tbl.getD b [] = [] → installFlow tbl f (a, b) = none) ∧
    ∀ ip rest, tbl.getD b [] = ip :: rest →
      installFlow tbl f (a, b) = some ⟨b, a, (9000 + f) % 65536, ip⟩ := by
  refine ⟨?_, ?_, ?_⟩
  · rw [installSessions, installSessionsGo_getD pairs 0 tbl f hf, hp, Nat.zero_add]
  · intro hempty
    rw [installFlow_eq, hempty]
  · intro ip rest hcons
    rw [installFlow_eq, hcons]

theorem c9_witness :
    installFlow (nodeAddrTable 2 [⟨0, 1, "10Mbps", "10ms"⟩]) 0 (0, 1) =
      some ⟨1, 0, (9000 + 0) % 65536, "10.0.1.2"⟩ :=
  (c9_session_per_flow (nodeAddrTable 2 [⟨0, 1, "10Mbps", "10ms"⟩]) [(0, 1)] 0 0 1 (by decide)
    rfl).2.2 "10.0.1.2" [] (by decide)

/-- C10: session installation consults only the destination's address list:
the decision and the installed sessions are invariant under any change to
the rest of the table (in particular the source's list may be empty), and a
non-empty destination list always yields the sender at `a` and sink at
`b`. -/
theorem c10_source_list_unused (t1 t2 : List (List String)) (f a b : Nat)
    (hb : t1.getD b [] = t2.getD b []) :
    installFlow t1 f (a, b) = installFlow t2 f (a, b) ∧
    (t1.getD b [] ≠ [] →
      ∃ s, installFlow t1 f (a, b) = some s ∧ s.senderNode = a ∧ s.sinkNode = b) := by
  constructor
  · rw [installFlow_eq, installFlow_eq, hb]
  · intro hne
    cases hcl : t1.getD b [] with
    | nil => exact absurd hcl hne
    | cons ip rest =>
      exact ⟨⟨b, a, (9000 + f) % 65536, ip⟩, by rw [installFlow_eq, hcl], rfl, rfl⟩

theorem c10_witness :
    ∃ s, installFlow (nodeAddrTable 3 [⟨1, 2, "10Mbps", "10ms"⟩]) 7 (0, 1) = some s ∧
      s.senderNode = 0 ∧ s.sinkNode = 1 :=
  (c10_source_list_unused (nodeAddrTable 3 [⟨1, 2, "10Mbps", "10ms"⟩])
    (nodeAddrTable 3 [⟨1, 2, "10Mbps", "10ms"⟩]) 7 0 1 rfl).2 (by decide)

end NS3Sim
